import Mathlib

/-!
Verification of `src/fasta_processor.py` (FASTA eGFP→mCherry transducer).

Strings are modelled as `List Char`; the input file as a list of lines
(`List (List Char)`, each line without its trailing newline, matching
Python's line iteration); the output file as the list of lines written
(each `outfile.write(x + '\n')` of a newline-free payload contributes
its payload lines, in order).
-/

namespace FastaProcessor

/-- Embedding of Python `str.strip()` (line 45: `line = line.strip()`):
drop whitespace from both ends. -/
def pyStrip (l : List Char) : List Char :=
  ((l.dropWhile Char.isWhitespace).reverse.dropWhile Char.isWhitespace).reverse

/-- Embedding of `line.startswith('>')` (line 47), applied to a stripped line. -/
def startsWithGt (l : List Char) : Bool :=
  l.head? == some '>'

/-- The successive slices `sequence[i:i+w]` for `i in range(0, len(sequence), w)`
with a positive step `w` (line 18).  Each slice takes `w` characters and the
next index advances by `w`; the iteration stops when the remaining text is
empty.  The `w = 0` branch is never reached: `wrap_sequence` filters out a
zero step before calling (Python `range` raises on step 0). -/
def chunks (w : Nat) (s : List Char) : List (List Char) :=
  if hs : s = [] then []
  else if hw : w = 0 then []
  else s.take w :: chunks w (s.drop w)
termination_by s.length
decreasing_by
  have h1 : 0 < s.length := List.length_pos.mpr hs
  simp only [List.length_drop]
  omega

/-- Embedding of `wrap_sequence` (lines 16-18):
`'\n'.join(sequence[i:i+width] for i in range(0, len(sequence), width))`.
The result is the ordered list of slices produced by the generator ( `none`
when `range` raises `ValueError` on a zero step).  For a negative step,
`range(0, len(s), width)` is empty, so the generator yields no slice. -/
def wrap_sequence (s : List Char) (width : Int) : Option (List (List Char)) :=
  if width = 0 then none
  else if width < 0 then some []
  else some (chunks width.toNat s)

/-- Embedding of Python `s.replace(old, new)` (lines 51 and 81): literal,
non-overlapping, left-to-right replacement of every occurrence of `old` by
`new`.  When `old` is empty, Python inserts `new` before every character and
at the end. -/
def pyReplace (old new : List Char) : List Char → List Char
  | [] => if old.isEmpty then new else []
  | c :: rest =>
    if h1 : old.isEmpty then new ++ (c :: rest).flatMap (fun ch => ch :: new)
    else if h2 : old.isPrefixOf (c :: rest) then
      new ++ pyReplace old new ((c :: rest).drop old.length)
    else c :: pyReplace old new rest
termination_by s => s.length
decreasing_by
  · have ho : old ≠ [] := by
      intro h
      simp [h] at h1
    have h1 : 1 ≤ old.length := List.length_pos.mpr ho
    simp only [List.length_drop, List.length_cons]
    omega
  · simp only [List.length_cons]
    omega

/-- Occurrence of `t` as a contiguous substring of `s`: some tail of `s`
begins with `t`. -/
def occurs (t s : List Char) : Prop :=
  ∃ q, (s.drop q).take t.length = t

/-- The number of matches found by the left-to-right non-overlapping scan
that `str.replace` performs: at each position, either `old` matches and the
scan resumes after the match, or the scan advances one character. -/
def scanCount (old : List Char) : List Char → Nat
  | [] => 0
  | c :: rest =>
    if h1 : old.isEmpty then 0
    else if h2 : old.isPrefixOf (c :: rest) then
      1 + scanCount old ((c :: rest).drop old.length)
    else scanCount old rest
termination_by s => s.length
decreasing_by
  · have ho : old ≠ [] := by
      intro h
      simp [h] at h1
    have h1 : 1 ≤ old.length := List.length_pos.mpr ho
    simp only [List.length_drop, List.length_cons]
    omega
  · simp only [List.length_cons]
    omega

/-- Interleaving concatenation: `icat sep [p0, p1, ..., pk] = p0 ++ sep ++ p1
++ sep ++ ... ++ pk`.  Used to state how `str.replace` decomposes its input
into gap segments separated by matches. -/
def icat (sep : List Char) : List (List Char) → List Char
  | [] => []
  | [p] => p
  | p :: q :: ps => p ++ sep ++ icat sep (q :: ps)

/-- Agreement of two strings on their common length: `agree u v` holds when
one of `u`, `v` is an initial segment of the other.  Used to express the
border conditions on the substitution pair under which `str.replace` cannot
create a fresh occurrence of the needle. -/
def agree : List Char → List Char → Bool
  | [], _ => true
  | _, [] => true
  | c :: u, d :: v => c == d && agree u v

/-- No proper non-empty suffix of `u` agrees with `v` on their common
length.  Decidable border condition checked once for the concrete
substitution pair. -/
def noSufAgree : List Char → List Char → Bool
  | [], _ => true
  | _ :: u, v => (u.isEmpty || !(agree u v)) && noSufAgree u v

/-- The hardcoded eGFP sequence (line 30). -/
def egfp_sequence : List Char :=
  "ATGGTGAGCAAGGGCGAGGAGCTGTTCACCGGGGTGGTGCCCATCCTGGTCGAGCTGGACGGCGACGTAAACGGCCACAAGTTCAGCGTGTCCGGCGAGGGCGAGGGCGATGCCACCTACGGCAAGCTGACCCTGAAGTTCATCTGCACCACCGGCAAGCTGCCCGTGCCCTGGCCCACCCTCGTGACCACCCTGACCTACGGCGTGCAGTGCTTCAGCCGCTACCCCGACCACATGAAGCAGCACGACTTCTTCAAGTCCGCCATGCCCGAAGGCTACGTCCAGGAGCGCACCATCTTCTTCAAGGACGACGGCAACTACAAGACCCGCGCCGAGGTGAAGTTCGAGGGCGACACCCTGGTGAACCGCATCGAGCTGAAGGGCATCGACTTCAAGGAGGACGGCAACATCCTGGGGCACAAGCTGGAGTACAACTACAACAGCCACAACGTCTATATCATGGCCGACAAGCAGAAGAACGGCATCAAGGTGAACTTCAAGATCCGCCACAACATCGAGGACGGCAGCGTGCAGCTCGCCGACCACTACCAGCAGAACACCCCCATCGGCGACGGCCCCGTGCTGCTGCCCGACAACCACTACCTGAGCACCCAGTCCGCCCTGAGCAAAGACCCCAACGAGAAGCGCGATCACATGGTCCTGCTGGAGTTCGTGACCGCCGCCGGGATCACTCTCGGCATGGACGAGCTGTACAAG".toList

/-- The hardcoded mCherry sequence (line 32). -/
def mcherry_sequence : List Char :=
  "ATGGTGAGCAAGGGCGAGGAGGATAACATGGCCATCATCAAGGAGTTCATGCGCTTCAAGGTGCACATGGAGGGCTCCGTGAACGGCCACGAGTTCGAGATCGAGGGCGAGGGCGAGGGCCGCCCCTACGAGGGCACCCAGACCGCCAAGCTGAAGGTGACCAAGGGTGGCCCCCTGCCCTTCGCCTGGGACATCCTGTCCCCTCAGTTCATGTACGGCTCCAAGGCCTACGTGAAGCACCCCGCCGACATCCCCGACTACTTGAAGCTGTCCTTCCCCGAGGGCTTCAAGTGGGAGCGCGTGATGAACTTCGAGGACGGCGGCGTGGTGACCGTGACCCAGGACTCCTCCCTGCAGGACGGCGAGTTCATCTACAAGGTGAAGCTGCGCGGCACCAACTTCCCCTCCGACGGCCCCGTAATGCAGAAGAAGACCATGGGCTGGGAGGCCTCCTCCGAGCGGATGTACCCCGAGGACGGCGCCCTGAAGGGCGAGATCAAGCAGAGGCTGAAGCTGAAGGACGGCGGCCACTACGACGCTGAGGTCAAGACCACCTACAAGGCCAAGAAGCCCGTGCAGCTGCCCGGCGCCTACAACGTCAACATCAAGTTGGACATCACCTCCCACAACGAGGACTACACCATCGTGGAACAGTACGAACGCGCCGAGGGCCGCCACTCCACCGGCGGCATGGACGAGCTGTACAAG".toList

/-- State of the processing loop of `process_fasta` (lines 38-40), together
with the lines written to the output file so far. -/
structure PState where
  current_header : Option (List Char)
  current_sequence : List Char
  sequence_count : Nat
  output : List (List Char)
deriving DecidableEq, Repr

/-- Finalization of an open record, the block duplicated at lines 49-61 (with
width 80) and lines 79-91 (with width 100): substitute eGFP by mCherry in the
accumulated sequence, write the header line, write the wrapped sequence when
it is non-empty, and increment the counter.  (The source also reassigns
`current_sequence` to the substituted text, but every caller either resets it
or never reads it again, so it is left unchanged here.)  When no record is
open nothing happens. -/
def finalizeRecord (w : Int) (st : PState) : PState :=
  match st.current_header with
  | none => st
  | some h =>
    let seq := pyReplace egfp_sequence mcherry_sequence st.current_sequence
    { st with
      output := st.output ++ h :: (if seq.isEmpty then [] else (wrap_sequence seq w).getD []),
      sequence_count := st.sequence_count + 1 }

/-- One iteration of the `for line in infile` loop (lines 44-76): strip the
line; a line starting with `>` finalizes the open record (width 80, line 58)
and becomes the new header with an empty accumulator; a non-empty line is
appended to the accumulator (line 76, with no check that a record is open);
an empty line is ignored. -/
def step (st : PState) (raw : List Char) : PState :=
  let line := pyStrip raw
  if startsWithGt line then
    let st' := finalizeRecord 80 st
    { st' with current_header := some line, current_sequence := [] }
  else if line.isEmpty then st
  else { st with current_sequence := st.current_sequence ++ line }

/-- Loop state before the first line (lines 38-40). -/
def initState : PState := ⟨none, [], 0, []⟩

/-- Embedding of `process_fasta` (lines 21-93): fold the loop over the input
lines, then finalize the last open record with width 100 (lines 79-91). -/
def process_fasta (lines : List (List Char)) : PState :=
  finalizeRecord 100 (List.foldl step initState lines)

/-- Embedding of `main` (lines 103-131): the width flag (`-w`, `--width`) is parsed
(lines 116-121) but `process_fasta` is called without it (line 131), so the
parsed width is dropped. -/
def main_run (width : Int) (lines : List (List Char)) : PState :=
  process_fasta lines

/-- Number of input lines whose stripped form starts with `>`. -/
def headerCount (lines : List (List Char)) : Nat :=
  List.countP (fun l => startsWithGt (pyStrip l)) lines

/-! ### Properties of the sequence wrapper -/

theorem chunks_nil (w : Nat) : chunks w [] = [] := by
  rw [chunks, dif_pos rfl]

theorem chunks_cons (w : Nat) (s : List Char) (hs : s ≠ []) (hw : w ≠ 0) :
    chunks w s = s.take w :: chunks w (s.drop w) := by
  rw [chunks, dif_neg hs, dif_neg hw]

theorem chunks_flatten {w : Nat} (hw : 1 ≤ w) (s : List Char) :
    (chunks w s).flatten = s := by
  by_cases hs : s = []
  · subst hs; rw [chunks_nil]; rfl
  · rw [chunks_cons w s hs (by omega)]
    have hrec := chunks_flatten hw (s.drop w)
    simp only [List.flatten_cons, hrec]
    exact List.take_append_drop w s
termination_by s.length
decreasing_by
  simp only [List.length_drop]
  have := List.length_pos.mpr hs
  omega

theorem chunks_length {w : Nat} (hw : 1 ≤ w) (s : List Char) :
    (chunks w s).length = (s.length + w - 1) / w := by
  by_cases hs : s = []
  · subst hs
    rw [chunks_nil]
    simp only [List.length_nil]
    rw [Nat.div_eq_of_lt (by omega)]
  · rw [chunks_cons w s hs (by omega)]
    have hrec := chunks_length hw (s.drop w)
    simp only [List.length_cons, hrec, List.length_drop]
    have hpos := List.length_pos.mpr hs
    by_cases hle : s.length ≤ w
    · have h1 : s.length - w + w - 1 = w - 1 := by omega
      rw [h1, Nat.div_eq_of_lt (by omega)]
      have h2 : (s.length + w - 1) / w = 1 := by
        apply Nat.div_eq_of_lt_le
        · omega
        · omega
      omega
    · have h3 : s.length - w + w - 1 = s.length - 1 := by omega
      have h4 : s.length + w - 1 = (s.length - 1) + w := by omega
      rw [h3, h4, Nat.add_div_right _ (by omega)]
termination_by s.length
decreasing_by
  simp only [List.length_drop]
  have := List.length_pos.mpr hs
  omega

theorem chunks_mem_len {w : Nat} (hw : 1 ≤ w) (s : List Char) (l : List Char)
    (hl : l ∈ chunks w s) : 1 ≤ l.length ∧ l.length ≤ w := by
  by_cases hs : s = []
  · rw [hs, chunks_nil] at hl
    cases hl
  · rw [chunks_cons w s hs (by omega)] at hl
    rcases List.mem_cons.mp hl with hl | hl
    · subst hl
      have hpos := List.length_pos.mpr hs
      simp only [List.length_take]
      omega
    · exact chunks_mem_len hw (s.drop w) l hl
termination_by s.length
decreasing_by
  simp only [List.length_drop]
  have := List.length_pos.mpr hs
  omega

theorem chunks_dropLast_len {w : Nat} (hw : 1 ≤ w) (s : List Char) (l : List Char)
    (hl : l ∈ (chunks w s).dropLast) : l.length = w := by
  by_cases hs : s = []
  · rw [hs, chunks_nil] at hl
    cases hl
  · rw [chunks_cons w s hs (by omega)] at hl
    by_cases hd : s.drop w = []
    · rw [hd, chunks_nil] at hl
      cases hl
    · have hlen : w < s.length := by
        have := List.length_pos.mpr hd
        simp only [List.length_drop] at this
        omega
      rw [chunks_cons w _ hd (by omega), List.dropLast_cons₂] at hl
      rw [← chunks_cons w _ hd (by omega)] at hl
      rcases List.mem_cons.mp hl with hl | hl
      · subst hl
        simp only [List.length_take]
        omega
      · exact chunks_dropLast_len hw (s.drop w) l hl
termination_by s.length
decreasing_by
  simp only [List.length_drop]
  have := List.length_pos.mpr hs
  omega

/-- C1: for every string `s` and every integer width at least 1,
`wrap_sequence s width` yields an ordered list of lines whose in-order
concatenation is exactly `s`; every line has length exactly `width` except
possibly the last, every line is non-empty and at most `width` long; the
number of lines is the rounded-up quotient of the length of `s` by `width`;
and an empty `s` gives zero lines (not one empty line). -/
theorem c1_wrap_invariant (s : List Char) (width : Int) (hw : 1 ≤ width) :
    ∃ ls, wrap_sequence s width = some ls ∧
      ls.flatten = s ∧
      (∀ l ∈ ls, 1 ≤ l.length ∧ l.length ≤ width.toNat) ∧
      (∀ l ∈ ls.dropLast, l.length = width.toNat) ∧
      ls.length = (s.length + width.toNat - 1) / width.toNat ∧
      (s = [] → ls = []) := by
  have hwt : 1 ≤ width.toNat := by omega
  refine ⟨chunks width.toNat s, ?_, chunks_flatten hwt s,
    fun l hl => chunks_mem_len hwt s l hl,
    fun l hl => chunks_dropLast_len hwt s l hl,
    chunks_length hwt s,
    fun hs => by rw [hs, chunks_nil]⟩
  rw [wrap_sequence, if_neg (by omega), if_neg (by omega)]

theorem c1_wrap_invariant_witness :
    (1 : Int) ≤ 3 ∧
    ∃ ls, wrap_sequence (String.toList "ABCD") 3 = some ls ∧
      ls.flatten = String.toList "ABCD" ∧
      (∀ l ∈ ls, 1 ≤ l.length ∧ l.length ≤ (3 : Int).toNat) ∧
      (∀ l ∈ ls.dropLast, l.length = (3 : Int).toNat) ∧
      ls.length = ((String.toList "ABCD").length + (3 : Int).toNat - 1) / (3 : Int).toNat ∧
      (String.toList "ABCD" = [] → ls = []) :=
  ⟨by decide, c1_wrap_invariant (String.toList "ABCD") 3 (by decide)⟩

/-- C10: for every string `s` and negative integer width, `wrap_sequence`
returns the empty result (zero lines) without raising an error, because
Python `range(0, len(s), width)` with a negative step counting up from 0 is
empty; only width 0 raises (`range` rejects a zero step). -/
theorem c10_negative_width_total :
    (∀ (s : List Char) (width : Int), width < 0 → wrap_sequence s width = some []) ∧
    (∀ s : List Char, wrap_sequence s 0 = none) := by
  constructor
  · intro s width hneg
    rw [wrap_sequence, if_neg (by omega), if_pos hneg]
  · intro s
    rw [wrap_sequence, if_pos rfl]

theorem c10_negative_width_total_witness :
    wrap_sequence (String.toList "AB") (-2) = some [] ∧
    wrap_sequence (String.toList "AB") 0 = none :=
  ⟨c10_negative_width_total.1 (String.toList "AB") (-2) (by decide),
   c10_negative_width_total.2 (String.toList "AB")⟩

/-! ### Properties of the substitution -/

theorem pyReplace_nil (old new : List Char) (hold : old ≠ []) :
    pyReplace old new [] = [] := by
  have h : old.isEmpty = false := by simp [List.isEmpty_iff, hold]
  simp only [pyReplace, h]
  rfl

theorem pyReplace_cons_pos (old new : List Char) (c : Char) (rest : List Char)
    (hold : old ≠ []) (hp : old <+: (c :: rest)) :
    pyReplace old new (c :: rest)
      = new ++ pyReplace old new ((c :: rest).drop old.length) := by
  have h1 : ¬ (old.isEmpty = true) := by simp [List.isEmpty_iff, hold]
  have h2 : old.isPrefixOf (c :: rest) = true := List.isPrefixOf_iff_prefix.mpr hp
  rw [pyReplace, dif_neg h1, dif_pos h2]

theorem pyReplace_cons_neg (old new : List Char) (c : Char) (rest : List Char)
    (hold : old ≠ []) (hp : ¬ (old <+: (c :: rest))) :
    pyReplace old new (c :: rest) = c :: pyReplace old new rest := by
  have h1 : ¬ (old.isEmpty = true) := by simp [List.isEmpty_iff, hold]
  have h2 : ¬ (old.isPrefixOf (c :: rest) = true) := by
    simpa [List.isPrefixOf_iff_prefix] using hp
  rw [pyReplace, dif_neg h1, dif_neg h2]

theorem scanCount_nil (old : List Char) : scanCount old [] = 0 := by
  rw [scanCount]

theorem scanCount_cons_pos (old : List Char) (c : Char) (rest : List Char)
    (hold : old ≠ []) (hp : old <+: (c :: rest)) :
    scanCount old (c :: rest) = 1 + scanCount old ((c :: rest).drop old.length) := by
  have h1 : ¬ (old.isEmpty = true) := by simp [List.isEmpty_iff, hold]
  have h2 : old.isPrefixOf (c :: rest) = true := List.isPrefixOf_iff_prefix.mpr hp
  rw [scanCount, dif_neg h1, dif_pos h2]

theorem scanCount_cons_neg (old : List Char) (c : Char) (rest : List Char)
    (hold : old ≠ []) (hp : ¬ (old <+: (c :: rest))) :
    scanCount old (c :: rest) = scanCount old rest := by
  have h1 : ¬ (old.isEmpty = true) := by simp [List.isEmpty_iff, hold]
  have h2 : ¬ (old.isPrefixOf (c :: rest) = true) := by
    simpa [List.isPrefixOf_iff_prefix] using hp
  rw [scanCount, dif_neg h1, dif_neg h2]

theorem occurs_nil_iff (t : List Char) : occurs t [] ↔ t = [] := by
  constructor
  · rintro ⟨q, hq⟩
    simpa using hq.symm
  · rintro rfl
    exact ⟨0, rfl⟩

theorem take_len_eq_iff (t l : List Char) : l.take t.length = t ↔ t <+: l := by
  rw [List.prefix_iff_eq_take]
  exact ⟨fun h => h.symm, fun h => h.symm⟩

theorem occurs_cons_iff (t : List Char) (c : Char) (s : List Char) :
    occurs t (c :: s) ↔ t <+: (c :: s) ∨ occurs t s := by
  constructor
  · rintro ⟨q, hq⟩
    cases q with
    | zero =>
      left
      rw [← take_len_eq_iff]
      simpa using hq
    | succ q' =>
      right
      exact ⟨q', by simpa using hq⟩
  · rintro (h | ⟨q, hq⟩)
    · exact ⟨0, by simpa [take_len_eq_iff] using h⟩
    · exact ⟨q + 1, by simpa using hq⟩

theorem pyReplace_of_not_occurs (old new s : List Char) (h : ¬ occurs old s) :
    pyReplace old new s = s := by
  have hold : old ≠ [] := by
    rintro rfl
    exact h ⟨0, rfl⟩
  induction s with
  | nil => exact pyReplace_nil old new hold
  | cons c rest ih =>
    rw [occurs_cons_iff] at h
    push_neg at h
    rw [pyReplace_cons_neg old new c rest hold h.1, ih h.2]

theorem agree_iff (u v : List Char) :
    agree u v = true ↔ u.take v.length = v.take u.length := by
  induction u generalizing v with
  | nil => simp [agree]
  | cons c u' ih =>
    cases v with
    | nil => simp [agree]
    | cons d v' =>
      simp only [agree, Bool.and_eq_true, beq_iff_eq, List.length_cons,
        List.take_succ_cons, List.cons.injEq, ih]

theorem agree_comm_true (u v : List Char) (h : agree u v = true) :
    agree v u = true := by
  rw [agree_iff] at h ⊢
  exact h.symm

theorem agree_of_pre_append (u v r : List Char) (h : u <+: v ++ r) :
    agree u v = true := by
  rw [agree_iff]
  have h' : u = (v ++ r).take u.length := List.prefix_iff_eq_take.mp h
  by_cases hle : u.length ≤ v.length
  · have e1 : u.take v.length = u := List.take_of_length_le hle
    have e2 : (v ++ r).take u.length = v.take u.length := by
      rw [List.take_append_eq_append_take]
      have h0 : u.length - v.length = 0 := by omega
      rw [h0]
      simp
    rw [e1, ← e2, ← h']
  · have hlt : v.length ≤ u.length := by omega
    have e1 : v.take u.length = v := List.take_of_length_le hlt
    have e2 : u.take v.length = v := by
      conv_lhs => rw [h']
      rw [List.take_take, Nat.min_eq_left hlt]
      exact List.take_left v r
    rw [e1, e2]

theorem noSufAgree_drop (u v : List Char) (h : noSufAgree u v = true) :
    ∀ a, 1 ≤ a → a < u.length → agree (u.drop a) v = false := by
  induction u with
  | nil =>
    intro a ha1 ha2
    simp at ha2
  | cons c u' ih =>
    intro a ha1 ha2
    simp only [noSufAgree, Bool.and_eq_true, Bool.or_eq_true] at h
    obtain ⟨h1, h2⟩ := h
    cases a with
    | zero => omega
    | succ a' =>
      simp only [List.drop_succ_cons]
      cases a' with
      | zero =>
        simp only [List.drop_zero]
        rcases h1 with h1 | h1
        · exfalso
          have hu : u' = [] := by simpa [List.isEmpty_iff] using h1
          subst hu
          simp at ha2
        · simpa using h1
      | succ a'' =>
        refine ih h2 (a'' + 1) (by omega) ?_
        simp only [List.length_cons] at ha2
        omega

theorem agree_drop_all (v u : List Char) (h0 : agree v u = false)
    (h : noSufAgree v u = true) :
    ∀ b, b < v.length → agree (v.drop b) u = false := by
  intro b hb
  cases b with
  | zero => simpa using h0
  | succ b' => exact noSufAgree_drop v u h (b' + 1) (by omega) hb

theorem pyReplace_tail_pre (old new : List Char) (hold : old ≠ [])
    (hA : ∀ a, 1 ≤ a → a < old.length → agree (old.drop a) new = false) :
    ∀ (s : List Char) (a : Nat), 1 ≤ a → a < old.length →
      old.drop a <+: pyReplace old new s → old.drop a <+: s := by
  suffices H : ∀ (n : Nat) (s : List Char), s.length ≤ n →
      ∀ (a : Nat), 1 ≤ a → a < old.length →
      old.drop a <+: pyReplace old new s → old.drop a <+: s by
    intro s a h1 h2 h3
    exact H s.length s le_rfl a h1 h2 h3
  intro n
  induction n with
  | zero =>
    intro s hs a ha1 ha2 hp
    cases s with
    | nil =>
      rw [pyReplace_nil old new hold, List.prefix_nil] at hp
      have hlen : (old.drop a).length = 0 := by rw [hp]; rfl
      simp only [List.length_drop] at hlen
      omega
    | cons c rest => simp at hs
  | succ n ih =>
    intro s hs a ha1 ha2 hp
    cases s with
    | nil =>
      rw [pyReplace_nil old new hold, List.prefix_nil] at hp
      have hlen : (old.drop a).length = 0 := by rw [hp]; rfl
      simp only [List.length_drop] at hlen
      omega
    | cons c rest =>
      by_cases hpre : old <+: (c :: rest)
      · exfalso
        rw [pyReplace_cons_pos old new c rest hold hpre] at hp
        have hag := agree_of_pre_append _ _ _ hp
        rw [hA a ha1 ha2] at hag
        cases hag
      · rw [pyReplace_cons_neg old new c rest hold hpre] at hp
        rw [List.drop_eq_getElem_cons ha2, List.cons_prefix_cons] at hp
        obtain ⟨hc, htail⟩ := hp
        have htail' : old.drop (a + 1) <+: rest := by
          by_cases hlt : a + 1 < old.length
          · refine ih rest ?_ (a + 1) (by omega) hlt htail
            simp only [List.length_cons] at hs
            omega
          · rw [List.drop_eq_nil_of_le (by omega)]
            exact List.nil_prefix
        rw [List.drop_eq_getElem_cons ha2, hc, List.cons_prefix_cons]
        exact ⟨rfl, htail'⟩

theorem pyReplace_no_occurs (old new : List Char) (hold : old ≠ [])
    (hA : ∀ a, 1 ≤ a → a < old.length → agree (old.drop a) new = false)
    (hB : ∀ b, b < new.length → agree (new.drop b) old = false)
    (s : List Char) : ¬ occurs old (pyReplace old new s) := by
  suffices H : ∀ (n : Nat) (s : List Char), s.length ≤ n →
      ¬ occurs old (pyReplace old new s) from H s.length s le_rfl
  intro n
  induction n with
  | zero =>
    intro s hs hocc
    cases s with
    | nil =>
      rw [pyReplace_nil old new hold, occurs_nil_iff] at hocc
      exact hold hocc
    | cons c rest => simp at hs
  | succ n ih =>
    intro s hs hocc
    cases s with
    | nil =>
      rw [pyReplace_nil old new hold, occurs_nil_iff] at hocc
      exact hold hocc
    | cons c rest =>
      have hrest : rest.length ≤ n := by
        simp only [List.length_cons] at hs
        omega
      have hdroplen : ((c :: rest).drop old.length).length ≤ n := by
        simp only [List.length_drop, List.length_cons]
        have h0 : 0 < old.length := List.length_pos.mpr hold
        omega
      by_cases hpre : old <+: (c :: rest)
      · rw [pyReplace_cons_pos old new c rest hold hpre] at hocc
        obtain ⟨q, hq⟩ := hocc
        by_cases hq2 : q < new.length
        · have e : (new ++ pyReplace old new ((c :: rest).drop old.length)).drop q
              = new.drop q ++ pyReplace old new ((c :: rest).drop old.length) := by
            rw [List.drop_append_eq_append_drop]
            have h0 : q - new.length = 0 := by omega
            rw [h0, List.drop_zero]
          rw [e] at hq
          have hpfx : old <+: new.drop q ++ pyReplace old new ((c :: rest).drop old.length) :=
            List.prefix_iff_eq_take.mpr hq.symm
          have hag := agree_comm_true _ _ (agree_of_pre_append _ _ _ hpfx)
          rw [hB q hq2] at hag
          cases hag
        · have e : (new ++ pyReplace old new ((c :: rest).drop old.length)).drop q
              = (pyReplace old new ((c :: rest).drop old.length)).drop (q - new.length) := by
            rw [List.drop_append_eq_append_drop]
            have h0 : new.drop q = [] := List.drop_eq_nil_of_le (by omega)
            rw [h0, List.nil_append]
          rw [e] at hq
          exact ih ((c :: rest).drop old.length) hdroplen ⟨q - new.length, hq⟩
      · rw [pyReplace_cons_neg old new c rest hold hpre] at hocc
        obtain ⟨q, hq⟩ := hocc
        cases q with
        | zero =>
          rw [List.drop_zero] at hq
          have hpfx : old <+: c :: pyReplace old new rest :=
            List.prefix_iff_eq_take.mpr hq.symm
          have hL : 0 < old.length := List.length_pos.mpr hold
          have hexp : old = old[0] :: old.drop 1 := by
            conv_lhs => rw [← List.drop_zero old]
            exact List.drop_eq_getElem_cons hL
          nth_rewrite 1 [hexp] at hpfx
          rw [List.cons_prefix_cons] at hpfx
          obtain ⟨hc0, htail⟩ := hpfx
          apply hpre
          by_cases hL1 : 1 < old.length
          · have hrest' := pyReplace_tail_pre old new hold hA rest 1 (by omega) hL1 htail
            nth_rewrite 1 [hexp]
            rw [hc0, List.cons_prefix_cons]
            exact ⟨rfl, hrest'⟩
          · have hnil : old.drop 1 = [] := List.drop_eq_nil_of_le (by omega)
            nth_rewrite 1 [hexp]
            rw [hc0, hnil, List.cons_prefix_cons]
            exact ⟨rfl, List.nil_prefix⟩
        | succ q' =>
          rw [List.drop_succ_cons] at hq
          exact ih rest hrest ⟨q', hq⟩

theorem icat_cons_cons (sep : List Char) (c : Char) (p : List Char)
    (ps : List (List Char)) :
    icat sep ((c :: p) :: ps) = c :: icat sep (p :: ps) := by
  cases ps with
  | nil => rfl
  | cons q qs => rfl

theorem icat_nil_cons (sep : List Char) (q : List Char) (qs : List (List Char)) :
    icat sep ([] :: q :: qs) = sep ++ icat sep (q :: qs) := rfl

theorem pyReplace_decomp (old new : List Char) (hold : old ≠ []) (s : List Char) :
    ∃ parts : List (List Char), parts ≠ [] ∧
      parts.length = scanCount old s + 1 ∧
      icat old parts = s ∧
      icat new parts = pyReplace old new s := by
  suffices H : ∀ (n : Nat) (s : List Char), s.length ≤ n →
      ∃ parts : List (List Char), parts ≠ [] ∧
        parts.length = scanCount old s + 1 ∧
        icat old parts = s ∧
        icat new parts = pyReplace old new s from H s.length s le_rfl
  intro n
  induction n with
  | zero =>
    intro s hs
    have hnil : s = [] := by
      cases s with
      | nil => rfl
      | cons c rest => simp at hs
    subst hnil
    refine ⟨[[]], by simp, by simp [scanCount_nil, icat], rfl, ?_⟩
    rw [pyReplace_nil old new hold]
    rfl
  | succ n ih =>
    intro s hs
    cases s with
    | nil =>
      refine ⟨[[]], by simp, by simp [scanCount_nil, icat], rfl, ?_⟩
      rw [pyReplace_nil old new hold]
      rfl
    | cons c rest =>
      have hrest : rest.length ≤ n := by
        simp only [List.length_cons] at hs
        omega
      have hdroplen : ((c :: rest).drop old.length).length ≤ n := by
        simp only [List.length_drop, List.length_cons]
        have h0 : 0 < old.length := List.length_pos.mpr hold
        omega
      by_cases hpre : old <+: (c :: rest)
      · obtain ⟨parts', hne, hlen, hio, hin⟩ := ih ((c :: rest).drop old.length) hdroplen
        obtain ⟨p, ps, rfl⟩ := List.exists_cons_of_ne_nil hne
        refine ⟨[] :: p :: ps, by simp, ?_, ?_, ?_⟩
        · simp only [List.length_cons] at hlen ⊢
          rw [scanCount_cons_pos old c rest hold hpre]
          omega
        · rw [icat_nil_cons, hio]
          exact List.prefix_iff_eq_append.mp hpre
        · rw [icat_nil_cons, hin, pyReplace_cons_pos old new c rest hold hpre]
      · obtain ⟨parts', hne, hlen, hio, hin⟩ := ih rest hrest
        obtain ⟨p, ps, rfl⟩ := List.exists_cons_of_ne_nil hne
        refine ⟨(c :: p) :: ps, by simp, ?_, ?_, ?_⟩
        · simp only [List.length_cons] at hlen ⊢
          rw [scanCount_cons_neg old c rest hold hpre]
          omega
        · rw [icat_cons_cons, hio]
        · rw [icat_cons_cons, hin, pyReplace_cons_neg old new c rest hold hpre]

theorem egfp_ne_nil : egfp_sequence ≠ [] := by decide

set_option maxRecDepth 20000 in
theorem egfp_mcherry_condA : noSufAgree egfp_sequence mcherry_sequence = true := by decide

set_option maxRecDepth 20000 in
theorem egfp_mcherry_condB0 : agree mcherry_sequence egfp_sequence = false := by decide

set_option maxRecDepth 20000 in
theorem egfp_mcherry_condB : noSufAgree mcherry_sequence egfp_sequence = true := by decide

theorem not_occurs_of_longer (t s : List Char) (h : s.length < t.length) :
    ¬ occurs t s := by
  rintro ⟨q, hq⟩
  have hlen := congrArg List.length hq
  simp only [List.length_take, List.length_drop] at hlen
  omega

/-! ### Unfolding lemmas for the transducer state machine -/

theorem wrap_sequence_pos (s : List Char) (w : Int) (hw : 0 < w) :
    wrap_sequence s w = some (chunks w.toNat s) := by
  rw [wrap_sequence, if_neg (by omega), if_neg (by omega)]

theorem finalizeRecord_none (w : Int) (st : PState) (h : st.current_header = none) :
    finalizeRecord w st = st := by
  rw [finalizeRecord, h]

theorem finalizeRecord_some (w : Int) (hw : 0 < w) (st : PState) (h : List Char)
    (hh : st.current_header = some h) :
    finalizeRecord w st = { st with
      output := st.output ++ h ::
        (if pyReplace egfp_sequence mcherry_sequence st.current_sequence = [] then []
         else chunks w.toNat (pyReplace egfp_sequence mcherry_sequence st.current_sequence)),
      sequence_count := st.sequence_count + 1 } := by
  rw [finalizeRecord, hh]
  simp [wrap_sequence_pos _ _ hw, List.isEmpty_iff]

theorem step_header (st : PState) (raw : List Char)
    (hh : startsWithGt (pyStrip raw) = true) :
    step st raw = { finalizeRecord 80 st with
      current_header := some (pyStrip raw), current_sequence := [] } := by
  rw [step]
  simp only [hh, if_true]

theorem step_empty (st : PState) (raw : List Char)
    (hh : startsWithGt (pyStrip raw) = false) (he : pyStrip raw = []) :
    step st raw = st := by
  simp [step, he, startsWithGt]

theorem step_body (st : PState) (raw : List Char)
    (hh : startsWithGt (pyStrip raw) = false) (he : pyStrip raw ≠ []) :
    step st raw = { st with current_sequence := st.current_sequence ++ pyStrip raw } := by
  rw [step]
  have he' : (pyStrip raw).isEmpty = false := by simp [List.isEmpty_iff, he]
  simp only [hh, he', Bool.false_eq_true, if_false]

theorem step_no_header (st : PState) (raw : List Char)
    (hgt : startsWithGt (pyStrip raw) = false) :
    (step st raw).current_header = st.current_header ∧
    (step st raw).output = st.output ∧
    (step st raw).sequence_count = st.sequence_count := by
  by_cases he : pyStrip raw = []
  · rw [step_empty st raw hgt he]
    exact ⟨rfl, rfl, rfl⟩
  · rw [step_body st raw hgt he]
    exact ⟨rfl, rfl, rfl⟩

/-- C4: for every accumulated record sequence `s`, the substitution performed
at finalization leaves no occurrence of the needle (the eGFP sequence) in the
record's output sequence, and the replacement decomposes `s` into gap parts
separated by the needle matches of the left-to-right scan: the output is the
same parts separated by the replacement (the mCherry sequence), so exactly
`scanCount` copies of the replacement are introduced, one per match. -/
theorem c4_substitution_completeness (s : List Char) :
    ¬ occurs egfp_sequence (pyReplace egfp_sequence mcherry_sequence s) ∧
    ∃ parts : List (List Char),
      parts.length = scanCount egfp_sequence s + 1 ∧
      icat egfp_sequence parts = s ∧
      icat mcherry_sequence parts = pyReplace egfp_sequence mcherry_sequence s := by
  constructor
  · exact pyReplace_no_occurs egfp_sequence mcherry_sequence egfp_ne_nil
      (noSufAgree_drop egfp_sequence mcherry_sequence egfp_mcherry_condA)
      (agree_drop_all mcherry_sequence egfp_sequence egfp_mcherry_condB0 egfp_mcherry_condB)
      s
  · obtain ⟨parts, _, h1, h2, h3⟩ :=
      pyReplace_decomp egfp_sequence mcherry_sequence egfp_ne_nil s
    exact ⟨parts, h1, h2, h3⟩

/-! ### Width behavior of the two finalization paths -/

/-- C3: the transducer ignores the width flag and uses two different
hardcoded widths: a record finalized because a subsequent header line
arrives is wrapped at the fixed width 80, while the final record (finalized
at end of input) is wrapped at the fixed width 100; the parsed flag value
never influences the result. -/
theorem c3_dual_hardcoded_widths :
    (∀ (w₁ w₂ : Int) (lines : List (List Char)), main_run w₁ lines = main_run w₂ lines) ∧
    (∀ (st : PState) (h raw : List Char), st.current_header = some h →
      startsWithGt (pyStrip raw) = true →
      (step st raw).output = st.output ++ h ::
        (if pyReplace egfp_sequence mcherry_sequence st.current_sequence = [] then []
         else chunks 80 (pyReplace egfp_sequence mcherry_sequence st.current_sequence))) ∧
    (∀ (st : PState) (h : List Char), st.current_header = some h →
      (finalizeRecord 100 st).output = st.output ++ h ::
        (if pyReplace egfp_sequence mcherry_sequence st.current_sequence = [] then []
         else chunks 100 (pyReplace egfp_sequence mcherry_sequence st.current_sequence))) := by
  refine ⟨fun w₁ w₂ lines => rfl, ?_, ?_⟩
  · intro st h raw hh hgt
    rw [step_header st raw hgt]
    show (finalizeRecord 80 st).output = _
    rw [finalizeRecord_some 80 (by norm_num) st h hh]
    simp
  · intro st h hh
    rw [finalizeRecord_some 100 (by norm_num) st h hh]
    simp

theorem c3_dual_hardcoded_widths_witness :
    (step ⟨some (String.toList ">a"), String.toList "ACGT", 0, []⟩
        (String.toList ">b")).output
      = (⟨some (String.toList ">a"), String.toList "ACGT", 0, []⟩ : PState).output
        ++ String.toList ">a" ::
        (if pyReplace egfp_sequence mcherry_sequence
              (⟨some (String.toList ">a"), String.toList "ACGT", 0, []⟩ : PState).current_sequence
              = [] then []
         else chunks 80 (pyReplace egfp_sequence mcherry_sequence
              (⟨some (String.toList ">a"), String.toList "ACGT", 0, []⟩ : PState).current_sequence)) ∧
    (finalizeRecord 100 ⟨some (String.toList ">a"), String.toList "ACGT", 0, []⟩).output
      = (⟨some (String.toList ">a"), String.toList "ACGT", 0, []⟩ : PState).output
        ++ String.toList ">a" ::
        (if pyReplace egfp_sequence mcherry_sequence
              (⟨some (String.toList ">a"), String.toList "ACGT", 0, []⟩ : PState).current_sequence
              = [] then []
         else chunks 100 (pyReplace egfp_sequence mcherry_sequence
              (⟨some (String.toList ">a"), String.toList "ACGT", 0, []⟩ : PState).current_sequence)) :=
  ⟨c3_dual_hardcoded_widths.2.1 ⟨some (String.toList ">a"), String.toList "ACGT", 0, []⟩
      (String.toList ">a") (String.toList ">b") rfl (by decide),
   c3_dual_hardcoded_widths.2.2 ⟨some (String.toList ">a"), String.toList "ACGT", 0, []⟩
      (String.toList ">a") rfl⟩

set_option maxRecDepth 20000 in
/-- C2, counterexample: on the input `>h` followed by one 81-character body
line, the final record is written as a single 81-character line (wrapped at
100), not as the two lines that wrapping at width 80 would produce, so not
every sequence-wrapping write uses width 80. -/
theorem c2_width80_counterexample :
    (process_fasta [String.toList ">h", List.replicate 81 'A']).output
      = [String.toList ">h", List.replicate 81 'A'] ∧
    (process_fasta [String.toList ">h", List.replicate 81 'A']).output
      ≠ [String.toList ">h"] ++ chunks 80
          (pyReplace egfp_sequence mcherry_sequence (List.replicate 81 'A')) := by
  have hloop : List.foldl step initState [String.toList ">h", List.replicate 81 'A']
      = ⟨some (String.toList ">h"), List.replicate 81 'A', 0, []⟩ := by decide
  have hR : pyReplace egfp_sequence mcherry_sequence (List.replicate 81 'A')
      = List.replicate 81 'A' :=
    pyReplace_of_not_occurs _ _ _ (not_occurs_of_longer _ _ (by decide))
  have hne : List.replicate 81 'A' ≠ ([] : List Char) := by decide
  have h100 : chunks 100 (List.replicate 81 'A') = [List.replicate 81 'A'] := by
    rw [chunks_cons 100 _ hne (by omega)]
    have hd : (List.replicate 81 'A').drop 100 = [] := by decide
    have ht : (List.replicate 81 'A').take 100 = List.replicate 81 'A' := by decide
    rw [hd, ht, chunks_nil]
  have h80 : chunks 80 (List.replicate 81 'A') = [List.replicate 80 'A', ['A']] := by
    rw [chunks_cons 80 _ hne (by omega)]
    have hd : (List.replicate 81 'A').drop 80 = ['A'] := by decide
    have ht : (List.replicate 81 'A').take 80 = List.replicate 80 'A' := by decide
    rw [hd, ht, chunks_cons 80 _ (by decide) (by omega)]
    have hd2 : (['A'] : List Char).drop 80 = [] := by decide
    have ht2 : (['A'] : List Char).take 80 = ['A'] := by decide
    rw [hd2, ht2, chunks_nil]
  have hout : (process_fasta [String.toList ">h", List.replicate 81 'A']).output
      = [String.toList ">h", List.replicate 81 'A'] := by
    rw [process_fasta, hloop,
      finalizeRecord_some 100 (by norm_num) _ (String.toList ">h") rfl]
    rw [hR, if_neg hne]
    rw [show Int.toNat 100 = 100 from rfl, h100]
    rfl
  refine ⟨hout, ?_⟩
  rw [hout, hR, h80]
  decide

/-- C2, amended: the parsed width flag never influences the output (it is
dropped before `process_fasta` is called); a record finalized because a
subsequent header arrives is wrapped with the hardcoded width 80, and the
final record, finalized at end of input, is wrapped with the hardcoded
width 100. -/
theorem c2_amended_width_behavior :
    (∀ (w : Int) (lines : List (List Char)), main_run w lines = process_fasta lines) ∧
    (∀ (st : PState) (raw : List Char), startsWithGt (pyStrip raw) = true →
      step st raw = { finalizeRecord 80 st with
        current_header := some (pyStrip raw), current_sequence := [] }) ∧
    (∀ lines : List (List Char),
      process_fasta lines = finalizeRecord 100 (List.foldl step initState lines)) :=
  ⟨fun w lines => rfl, fun st raw hgt => step_header st raw hgt, fun lines => rfl⟩

theorem c2_amended_width_behavior_witness :
    step ⟨some (String.toList ">a"), String.toList "AC", 0, []⟩ (String.toList ">b")
      = { finalizeRecord 80 ⟨some (String.toList ">a"), String.toList "AC", 0, []⟩ with
          current_header := some (pyStrip (String.toList ">b")), current_sequence := [] } :=
  c2_amended_width_behavior.2.1 ⟨some (String.toList ">a"), String.toList "AC", 0, []⟩
    (String.toList ">b") (by decide)

/-- C5: for a record whose accumulated sequence contains no occurrence of
the needle, finalization at any positive width writes the header followed by
wrapped lines whose concatenation is exactly the accumulated input
sequence: the pipeline is a no-op on the sequence content. -/
theorem c5_no_needle_roundtrip (w : Int) (st : PState) (h : List Char)
    (hw : 1 ≤ w) (hh : st.current_header = some h)
    (hno : ¬ occurs egfp_sequence st.current_sequence) :
    ∃ ls : List (List Char),
      (finalizeRecord w st).output = st.output ++ h :: ls ∧
      ls.flatten = st.current_sequence := by
  rw [finalizeRecord_some w (by omega) st h hh]
  rw [pyReplace_of_not_occurs _ _ _ hno]
  by_cases hs : st.current_sequence = []
  · refine ⟨[], by simp [hs], by simp [hs]⟩
  · refine ⟨chunks w.toNat st.current_sequence, by simp [hs], ?_⟩
    exact chunks_flatten (by omega) st.current_sequence

set_option maxRecDepth 20000 in
theorem c5_no_needle_roundtrip_witness :
    ∃ ls : List (List Char),
      (finalizeRecord 80 ⟨some (String.toList ">x"), String.toList "ACGT", 0, []⟩).output
        = (⟨some (String.toList ">x"), String.toList "ACGT", 0, []⟩ : PState).output
          ++ String.toList ">x" :: ls ∧
      ls.flatten = (⟨some (String.toList ">x"), String.toList "ACGT", 0, []⟩ : PState).current_sequence :=
  c5_no_needle_roundtrip 80 ⟨some (String.toList ">x"), String.toList "ACGT", 0, []⟩
    (String.toList ">x") (by decide) rfl
    (not_occurs_of_longer _ _ (by decide))

/-- C6: if end of input is reached while a record is open, `process_fasta`
finalizes that record through the end-of-input path alone: the final output
extends the loop output by exactly one header plus its wrapped sequence, and
the record counter is incremented exactly once. -/
theorem c6_last_record_once (lines : List (List Char)) (h : List Char)
    (hopen : (List.foldl step initState lines).current_header = some h) :
    (process_fasta lines).output
      = (List.foldl step initState lines).output ++ h ::
        (if pyReplace egfp_sequence mcherry_sequence
              (List.foldl step initState lines).current_sequence = [] then []
         else chunks 100 (pyReplace egfp_sequence mcherry_sequence
              (List.foldl step initState lines).current_sequence)) ∧
    (process_fasta lines).sequence_count
      = (List.foldl step initState lines).sequence_count + 1 := by
  rw [process_fasta, finalizeRecord_some 100 (by norm_num) _ h hopen]
  constructor <;> simp

set_option maxRecDepth 20000 in
theorem c6_last_record_once_witness :
    (process_fasta [String.toList ">h", String.toList "AC"]).output
      = (List.foldl step initState [String.toList ">h", String.toList "AC"]).output
        ++ String.toList ">h" ::
        (if pyReplace egfp_sequence mcherry_sequence
              (List.foldl step initState [String.toList ">h", String.toList "AC"]).current_sequence
              = [] then []
         else chunks 100 (pyReplace egfp_sequence mcherry_sequence
              (List.foldl step initState [String.toList ">h", String.toList "AC"]).current_sequence)) ∧
    (process_fasta [String.toList ">h", String.toList "AC"]).sequence_count
      = (List.foldl step initState [String.toList ">h", String.toList "AC"]).sequence_count + 1 :=
  c6_last_record_once [String.toList ">h", String.toList "AC"] (String.toList ">h") (by decide)

/-! ### Counting records -/

theorem step_count (st : PState) (raw : List Char) :
    (step st raw).sequence_count
      + (if (step st raw).current_header.isSome then 1 else 0)
      = st.sequence_count + (if st.current_header.isSome then 1 else 0)
        + (if startsWithGt (pyStrip raw) then 1 else 0) := by
  by_cases hgt : startsWithGt (pyStrip raw) = true
  · rw [step_header st raw hgt]
    cases hcur : st.current_header with
    | none =>
      rw [finalizeRecord_none 80 st hcur]
      simp [hcur, hgt]
    | some h =>
      rw [finalizeRecord_some 80 (by norm_num) st h hcur]
      simp [hcur, hgt]
  · have hgt' : startsWithGt (pyStrip raw) = false := by simpa using hgt
    obtain ⟨a, _, c⟩ := step_no_header st raw hgt'
    rw [a, c, hgt']
    simp

theorem foldl_count (lines : List (List Char)) : ∀ st : PState,
    (List.foldl step st lines).sequence_count
      + (if (List.foldl step st lines).current_header.isSome then 1 else 0)
      = st.sequence_count + (if st.current_header.isSome then 1 else 0)
        + headerCount lines := by
  induction lines with
  | nil =>
    intro st
    simp [headerCount]
  | cons l ls ih =>
    intro st
    rw [List.foldl_cons, ih (step st l), step_count st l]
    simp only [headerCount, List.countP_cons]
    by_cases hgt : startsWithGt (pyStrip l) = true <;> simp [hgt] <;> omega

/-- C7: the finalized-record count reported at completion equals the number
of input lines whose stripped form starts with the header marker. -/
theorem c7_count_accuracy (lines : List (List Char)) :
    (process_fasta lines).sequence_count = headerCount lines := by
  have hc := foldl_count lines initState
  rw [process_fasta]
  cases hcur : (List.foldl step initState lines).current_header with
  | none =>
    rw [finalizeRecord_none 100 _ hcur]
    rw [hcur] at hc
    simpa [initState] using hc
  | some hd =>
    rw [finalizeRecord_some 100 (by norm_num) _ hd hcur]
    rw [hcur] at hc
    have h0 : initState.sequence_count = 0 := rfl
    have h1 : initState.current_header = none := rfl
    rw [h0, h1] at hc
    simp at hc
    simp
    omega

/-- C8: a record with an empty accumulated sequence produces exactly one
output line, its header, and zero sequence lines — both when finalized by
the arrival of the next header line and when finalized at end of input. -/
theorem c8_empty_sequence_record :
    (∀ (w : Int) (st : PState) (h : List Char), 0 < w →
      st.current_header = some h → st.current_sequence = [] →
      (finalizeRecord w st).output = st.output ++ [h]) ∧
    (∀ (st : PState) (h raw : List Char),
      st.current_header = some h → st.current_sequence = [] →
      startsWithGt (pyStrip raw) = true →
      (step st raw).output = st.output ++ [h]) := by
  have key : ∀ (w : Int) (st : PState) (h : List Char), 0 < w →
      st.current_header = some h → st.current_sequence = [] →
      (finalizeRecord w st).output = st.output ++ [h] := by
    intro w st h hw hh hs
    rw [finalizeRecord_some w hw st h hh, hs]
    rw [pyReplace_nil _ _ egfp_ne_nil]
    simp
  refine ⟨key, ?_⟩
  intro st h raw hh hs hgt
  rw [step_header st raw hgt]
  show (finalizeRecord 80 st).output = _
  exact key 80 st h (by norm_num) hh hs

theorem c8_empty_sequence_record_witness :
    (finalizeRecord 100 ⟨some (String.toList ">e"), [], 3, []⟩).output
      = (⟨some (String.toList ">e"), [], 3, []⟩ : PState).output ++ [String.toList ">e"] ∧
    (step ⟨some (String.toList ">e"), [], 3, []⟩ (String.toList ">f")).output
      = (⟨some (String.toList ">e"), [], 3, []⟩ : PState).output ++ [String.toList ">e"] :=
  ⟨c8_empty_sequence_record.1 100 ⟨some (String.toList ">e"), [], 3, []⟩
      (String.toList ">e") (by norm_num) rfl rfl,
   c8_empty_sequence_record.2 ⟨some (String.toList ">e"), [], 3, []⟩
      (String.toList ">e") (String.toList ">f") rfl rfl (by decide)⟩

/-! ### Orphan lines before the first header -/

theorem run_same_output (rest : List (List Char)) : ∀ st₁ st₂ : PState,
    st₁.current_header = none → st₂.current_header = none →
    st₁.output = st₂.output → st₁.sequence_count = st₂.sequence_count →
    (finalizeRecord 100 (List.foldl step st₁ rest)).output
      = (finalizeRecord 100 (List.foldl step st₂ rest)).output := by
  induction rest with
  | nil =>
    intro st₁ st₂ h1 h2 ho hc
    simp only [List.foldl_nil]
    rw [finalizeRecord_none 100 st₁ h1, finalizeRecord_none 100 st₂ h2]
    exact ho
  | cons l ls ih =>
    intro st₁ st₂ h1 h2 ho hc
    simp only [List.foldl_cons]
    by_cases hgt : startsWithGt (pyStrip l) = true
    · have e : step st₁ l = step st₂ l := by
        rw [step_header st₁ l hgt, step_header st₂ l hgt,
          finalizeRecord_none 80 st₁ h1, finalizeRecord_none 80 st₂ h2]
        cases st₁
        cases st₂
        simp_all
      rw [e]
    · have hgt' : startsWithGt (pyStrip l) = false := by simpa using hgt
      obtain ⟨a1, b1, c1⟩ := step_no_header st₁ l hgt'
      obtain ⟨a2, b2, c2⟩ := step_no_header st₂ l hgt'
      exact ih (step st₁ l) (step st₂ l) (a1.trans h1) (a2.trans h2)
        (b1.trans (ho.trans b2.symm)) (c1.trans (hc.trans c2.symm))

theorem foldl_orphans (pre : List (List Char)) : ∀ st : PState,
    (∀ l ∈ pre, startsWithGt (pyStrip l) = false) → st.current_header = none →
    (List.foldl step st pre).current_header = none ∧
    (List.foldl step st pre).output = st.output ∧
    (List.foldl step st pre).sequence_count = st.sequence_count := by
  induction pre with
  | nil =>
    intro st _ hnone
    exact ⟨hnone, rfl, rfl⟩
  | cons l ls ih =>
    intro st hall hnone
    rw [List.foldl_cons]
    obtain ⟨a, b, c⟩ := step_no_header st l (hall l (by simp))
    obtain ⟨a', b', c'⟩ := ih (step st l)
      (fun x hx => hall x (by simp [hx])) (a.trans hnone)
    exact ⟨a', b'.trans b, c'.trans c⟩

/-- C9: non-empty non-header lines before the first header have no effect on
the output — dropping any leading block of non-header lines leaves the
output unchanged — and an input with no header at all writes nothing. -/
theorem c9_orphan_lines_ignored :
    (∀ (pre rest : List (List Char)),
      (∀ l ∈ pre, startsWithGt (pyStrip l) = false) →
      (process_fasta (pre ++ rest)).output = (process_fasta rest).output) ∧
    (∀ lines : List (List Char),
      (∀ l ∈ lines, startsWithGt (pyStrip l) = false) →
      (process_fasta lines).output = []) := by
  constructor
  · intro pre rest hall
    rw [process_fasta, process_fasta, List.foldl_append]
    obtain ⟨a, b, c⟩ := foldl_orphans pre initState hall rfl
    exact run_same_output rest (List.foldl step initState pre) initState a rfl b c
  · intro lines hall
    rw [process_fasta]
    obtain ⟨a, b, _⟩ := foldl_orphans lines initState hall rfl
    rw [finalizeRecord_none 100 _ a]
    exact b

theorem c9_orphan_lines_ignored_witness :
    (process_fasta ([String.toList "AAA"] ++ [String.toList ">h"])).output
      = (process_fasta [String.toList ">h"]).output ∧
    (process_fasta [String.toList "AAA"]).output = [] :=
  ⟨c9_orphan_lines_ignored.1 [String.toList "AAA"] [String.toList ">h"] (by decide),
   c9_orphan_lines_ignored.2 [String.toList "AAA"] (by decide)⟩

end FastaProcessor
